import Mathlib

set_option maxHeartbeats 1000000

/-!
Verification development for the record-extraction pipeline in
`pinterest_to_csv.py`.  Strings are embedded as `List Char`; absent input
(Python `None`) as `Option (List Char) := none`.  The Unicode
`unicodedata.category _ == "So"` test used by the classifier's fallback is an
external library lookup, so it is a parameter `catSo : Char → Bool` of the
embedding; every theorem quantifies over it.  Python's `str.lower` is modelled
on the ASCII range (all comparisons in the source are against ASCII literals).
`ast.literal_eval` is likewise an external decoder, modelled as a parameter
`lit : List Char → Except Unit PyVal` that may fail.
-/

/-- The apostrophe character, used by the structured-list fallback pattern. -/
def quoteChar : Char := Char.ofNat 39

/-- Python's Unicode whitespace set, as matched by `\s` on `str` patterns and
stripped by `str.strip()`. -/
def pySpace (c : Char) : Bool :=
  let n := c.toNat
  (0x09 ≤ n ∧ n ≤ 0x0D) ∨ (0x1C ≤ n ∧ n ≤ 0x1F) ∨ n = 0x20 ∨ n = 0x85 ∨
    n = 0xA0 ∨ n = 0x1680 ∨ (0x2000 ≤ n ∧ n ≤ 0x200A) ∨ n = 0x2028 ∨
    n = 0x2029 ∨ n = 0x202F ∨ n = 0x205F ∨ n = 0x3000

/-- `str.strip()`: drop Python whitespace from both ends. -/
def pyStrip (l : List Char) : List Char :=
  (l.dropWhile pySpace).rdropWhile pySpace

/-- ASCII model of `str.lower` on one character. -/
def pyLower (c : Char) : Char :=
  if 'A' ≤ c ∧ c ≤ 'Z' then Char.ofNat (c.toNat + 32) else c

/-- ASCII model of `str.lower` on a string. -/
def pyLowerList (l : List Char) : List Char := l.map pyLower

/-- Membership of a code point in the fixed emoji block list of
`is_emoji_char` (source lines 32-41). -/
def inBlocks (cp : Nat) : Bool :=
  (0x1F600 ≤ cp ∧ cp ≤ 0x1F64F) ∨ (0x1F300 ≤ cp ∧ cp ≤ 0x1F5FF) ∨
    (0x1F680 ≤ cp ∧ cp ≤ 0x1F6FF) ∨ (0x1F900 ≤ cp ∧ cp ≤ 0x1F9FF) ∨
    (0x1FA00 ≤ cp ∧ cp ≤ 0x1FAFF) ∨ (0x1F1E6 ≤ cp ∧ cp ≤ 0x1F1FF) ∨
    (0x2600 ≤ cp ∧ cp ≤ 0x26FF) ∨ (0x2700 ≤ cp ∧ cp ≤ 0x27BF)

/-- `is_emoji_char` (source lines 14-50), with the `unicodedata` category
lookup abstracted as `catSo`. -/
def is_emoji_char (catSo : Char → Bool) (c : Char) : Bool :=
  let cp := c.toNat
  if cp = 0x200D ∨ cp = 0xFE0E ∨ cp = 0xFE0F then true
  else if 0x1F3FB ≤ cp ∧ cp ≤ 0x1F3FF then true
  else if inBlocks cp then true
  else if catSo c = true ∧ 0x1F000 ≤ cp then true
  else false

/-- The trivially-false category function, used to instantiate `catSo` in
concrete evaluations. -/
def catFalse : Char → Bool := fun _ => false

/-- Characters whose classification does not depend on the category lookup:
either below the pictograph plane or inside an explicit emoji range. -/
def catIndep (c : Char) : Bool :=
  decide (c.toNat < 0x1F000) ||
    (decide (c.toNat = 0x200D ∨ c.toNat = 0xFE0E ∨ c.toNat = 0xFE0F) ||
      (decide (0x1F3FB ≤ c.toNat ∧ c.toNat ≤ 0x1F3FF) || inBlocks c.toNat))

theorem is_emoji_char_congr (catSo : Char → Bool) (c : Char)
    (h : catIndep c = true) : is_emoji_char catSo c = is_emoji_char catFalse c := by
  unfold is_emoji_char
  by_cases h1 : c.toNat = 0x200D ∨ c.toNat = 0xFE0E ∨ c.toNat = 0xFE0F
  · simp [h1]
  by_cases h2 : 0x1F3FB ≤ c.toNat ∧ c.toNat ≤ 0x1F3FF
  · simp [h1, h2]
  by_cases h3 : inBlocks c.toNat = true
  · simp [h1, h2, h3]
  · have hc : ¬ (catSo c = true ∧ 0x1F000 ≤ c.toNat) := by
      rintro ⟨_, hge⟩
      simp only [catIndep, Bool.or_eq_true, decide_eq_true_eq] at h
      rcases h with h | h | h | h
      · omega
      · exact h1 h
      · exact h2 h
      · exact h3 h
    have hf : ¬ (catFalse c = true ∧ 0x1F000 ≤ c.toNat) := by
      rintro ⟨hcat, _⟩; simp [catFalse] at hcat
    simp [h1, h2, h3, hc, hf]

theorem is_emoji_char_space (catSo : Char → Bool) :
    is_emoji_char catSo ' ' = false := by
  have h3 : inBlocks 32 = false := by decide
  simp [is_emoji_char, h3, show (' ' : Char).toNat = 32 from rfl]

/-- Replace each maximal run of Python whitespace with a single space:
the effect of `re.sub(r"\s+", " ", s)`. -/
def collapseRuns : List Char → List Char
  | [] => []
  | [c] => if pySpace c then [' '] else [c]
  | c :: d :: rest =>
    if pySpace c ∧ pySpace d then collapseRuns (d :: rest)
    else (if pySpace c then ' ' else c) :: collapseRuns (d :: rest)

/-- `replace_emojis_with_space` (source lines 52-60): emoji-like characters
become spaces, whitespace runs collapse, ends are trimmed. -/
def replace_emojis_with_space (catSo : Char → Bool) (s : List Char) : List Char :=
  if s = [] then []
  else pyStrip (collapseRuns (s.map (fun ch => if is_emoji_char catSo ch then ' ' else ch)))

/-- `strip_trailing_commas` (source lines 64-68): delete the trailing run of
commas and whitespace (`re.sub(r"[,\s]+$", "", s)`). -/
def strip_trailing_commas (s : List Char) : List Char :=
  s.rdropWhile (fun c => c = ',' ∨ pySpace c)

/-- `remove_all_commas` (source lines 70-74). -/
def remove_all_commas (s : List Char) : List Char :=
  s.filter (fun c => c ≠ ',')

/-- `to_na_if_empty` (source lines 76-81). -/
def to_na_if_empty (s : List Char) : List Char :=
  let t := pyStrip s
  if t = [] then "NA".data else t

/-- `sanitize_value` (source lines 83-102). -/
def sanitize_value (catSo : Char → Bool) : Option (List Char) → List Char
  | none => "NA".data
  | some s0 =>
    let s1 := replace_emojis_with_space catSo s0
    let s2 := strip_trailing_commas (pyStrip s1)
    if pyLowerList s2 = "no data".data then "NA".data
    else
      let s3 := remove_all_commas s2
      let s4 := pyStrip (collapseRuns s3)
      to_na_if_empty s4

/-- `parse_bool` (source lines 104-121). -/
def parse_bool (catSo : Char → Bool) : Option (List Char) → List Char
  | none => "NA".data
  | some s0 =>
    let s1 := replace_emojis_with_space catSo s0
    let s2 := pyStrip (strip_trailing_commas s1)
    let s3 := pyLowerList (remove_all_commas s2)
    if s3 = "true".data then "true".data
    else if s3 = "false".data then "false".data
    else "NA".data

/-- A decoded Python literal, at the granularity `parse_story_pin_media`
inspects: a string, a list, a dict with string keys, or anything else. -/
inductive PyVal where
  | vstr : List Char → PyVal
  | vlist : List PyVal → PyVal
  | vdict : List (List Char × PyVal) → PyVal
  | vother : PyVal

/-- Python `str()` applied to a decoded literal: a string renders as itself.
Rendering of non-string literals follows Python `repr`, which no claim
exercises; it is left empty here. -/
def pyToStr : PyVal → List Char
  | .vstr s => s
  | _ => []

/-- `"image" in item` / `item["image"]` on a decoded dict. -/
def lookupDict (d : List (List Char × PyVal)) (k : List Char) : Option PyVal :=
  (d.find? (fun p => p.1 == k)).map (fun p => p.2)

/-- The group matched by `re.search(r"(\[.*\])", s, re.DOTALL)`: from the
first opening bracket through the last closing bracket after it, if any. -/
def extractBracket (s : List Char) : Option (List Char) :=
  match s.dropWhile (fun c => c ≠ '[') with
  | [] => none
  | lb :: rest =>
    if rest.contains ']' then
      some (lb :: rest.rdropWhile (fun c => c ≠ ']'))
    else none

/-- Match a literal pattern at the head of a string, returning the remainder. -/
def stripPrefixChars : List Char → List Char → Option (List Char)
  | [], s => some s
  | _ :: _, [] => none
  | p :: ps, c :: cs => if c = p then stripPrefixChars ps cs else none

theorem stripPrefixChars_length : ∀ {ps s r : List Char},
    stripPrefixChars ps s = some r → r.length + ps.length = s.length := by
  intro ps
  induction ps with
  | nil =>
    intro s r h
    simp [stripPrefixChars] at h
    simp [h]
  | cons p ps ih =>
    intro s r h
    cases s with
    | nil => simp [stripPrefixChars] at h
    | cons c cs =>
      simp only [stripPrefixChars] at h
      split at h
      · have := ih h
        simp only [List.length_cons]
        omega
      · exact Option.noConfusion h

/-- The literal text `'image':` of the fallback pattern. -/
def imageKeyPat : List Char := [quoteChar] ++ "image".data ++ [quoteChar, ':']

/-- One attempted match of `'image':\s*'([^']+)'` at the head of the string:
on success, the captured group and the remainder after the match. -/
def matchImageAt (s : List Char) : Option (List Char × List Char) :=
  (stripPrefixChars imageKeyPat s).bind fun r1 =>
    match r1.dropWhile pySpace with
    | [] => none
    | c :: r3 =>
      if c = quoteChar then
        match r3.takeWhile (fun x => x ≠ quoteChar),
            r3.dropWhile (fun x => x ≠ quoteChar) with
        | [], _ => none
        | g :: gs, d :: r5 => if d = quoteChar then some (g :: gs, r5) else none
        | _ :: _, [] => none
      else none

theorem length_dropWhile_le (p : α → Bool) (l : List α) :
    (l.dropWhile p).length ≤ l.length :=
  (List.dropWhile_suffix p).sublist.length_le

theorem matchImageAt_lt {s g r : List Char} (h : matchImageAt s = some (g, r)) :
    r.length < s.length := by
  unfold matchImageAt at h
  cases hp : stripPrefixChars imageKeyPat s with
  | none => rw [hp] at h; exact Option.noConfusion h
  | some r1 =>
    rw [hp] at h
    have hlen : r1.length + 8 = s.length := by
      simpa [imageKeyPat] using stripPrefixChars_length hp
    simp only [Option.some_bind] at h
    have hdw : (r1.dropWhile pySpace).length ≤ r1.length :=
      length_dropWhile_le pySpace r1
    split at h
    · exact Option.noConfusion h
    next c r3 hr2 =>
      have hr3 : r3.length + 1 ≤ r1.length := by
        have := congrArg List.length hr2
        simp only [List.length_cons] at this
        omega
      split at h
      · have hdw3 : (r3.dropWhile (fun x => x ≠ quoteChar)).length ≤ r3.length :=
          length_dropWhile_le _ r3
        split at h
        · exact Option.noConfusion h
        next g1 gs d r5 htw hdw2 =>
          have hr5 : r5.length + 1 ≤ r3.length := by
            have := congrArg List.length hdw2
            simp only [List.length_cons] at this
            omega
          split at h
          · cases h
            omega
          · exact Option.noConfusion h
        · exact Option.noConfusion h
      · exact Option.noConfusion h

/-- Scanner for `re.findall(r"'image':\s*'([^']+)'", s)`: at each position try
a match; on success continue after it, otherwise advance one character.  The
fuel argument only bounds the recursion; by `matchImageAt_lt` every step
strictly shortens the string, so fuel `s.length` never runs out
(`findImagesAux_congr` below). -/
def findImagesAux : Nat → List Char → List (List Char)
  | 0, _ => []
  | _ + 1, [] => []
  | fuel + 1, c :: rest =>
    match matchImageAt (c :: rest) with
    | some (g, r) => g :: findImagesAux fuel r
    | none => findImagesAux fuel rest

/-- All captured groups of `re.findall(r"'image':\s*'([^']+)'", s)`, scanning
left to right without overlap. -/
def findImages (s : List Char) : List (List Char) := findImagesAux s.length s

theorem findImagesAux_congr : ∀ fuel1 fuel2 s, s.length ≤ fuel1 →
    s.length ≤ fuel2 → findImagesAux fuel1 s = findImagesAux fuel2 s := by
  intro fuel1
  induction fuel1 with
  | zero =>
    intro fuel2 s h1 _
    have : s = [] := List.eq_nil_of_length_eq_zero (Nat.le_zero.mp h1)
    subst this
    cases fuel2 <;> rfl
  | succ f1 ih =>
    intro fuel2 s h1 h2
    cases s with
    | nil => cases fuel2 <;> rfl
    | cons c rest =>
      cases fuel2 with
      | zero => simp at h2
      | succ f2 =>
        simp only [findImagesAux]
        cases hm : matchImageAt (c :: rest) with
        | some gr =>
          obtain ⟨g, r⟩ := gr
          have hlt := matchImageAt_lt hm
          simp only [List.length_cons] at h1 h2 hlt
          exact congrArg (g :: ·) (ih f2 r (by omega) (by omega))
        | none =>
          simp only [List.length_cons] at h1 h2
          exact ih f2 rest (by omega) (by omega)

/-- The normalization `parse_story_pin_media` applies before decoding
(source lines 134-135): emoji replacement, trailing-comma strip, trim. -/
def storyNormalize (catSo : Char → Bool) (s : List Char) : List Char :=
  pyStrip (strip_trailing_commas (replace_emojis_with_space catSo s))

/-- The regex-fallback path of `parse_story_pin_media` (source lines 156-163). -/
def story_fallback (catSo : Char → Bool) (s : List Char) : List Char :=
  let imgs := ((findImages s).filter (fun g => g ≠ [])).map
    (fun i => sanitize_value catSo (some i))
  let imgs := imgs.filter (fun i => i ≠ "NA".data)
  if imgs ≠ [] then List.intercalate "|".data imgs else "NA".data

/-- One iteration of the item loop (source lines 146-150): a dict item with
an `'image'` key contributes its sanitized value when non-sentinel. -/
def story_item_image (catSo : Char → Bool) : PyVal → Option (List Char)
  | PyVal.vdict d =>
    match lookupDict d "image".data with
    | some v =>
      let img := sanitize_value catSo (some (pyToStr v))
      if img ≠ "NA".data then some img else none
    | none => none
  | _ => none

/-- The loop over a successfully decoded list (source lines 144-151):
collect the sanitized, non-sentinel `'image'` values of the dict items and
pipe-join them, or return the sentinel. -/
def story_items_result (catSo : Char → Bool) (items : List PyVal) : List Char :=
  let images := items.filterMap (story_item_image catSo)
  if images ≠ [] then List.intercalate "|".data images else "NA".data

/-- The `try`/`except` block of `parse_story_pin_media` (source lines
139-163): decode the bracket group if present; a raised decoding error or a
non-list result falls through to the regex fallback. -/
def story_try (catSo : Char → Bool) (lit : List Char → Except Unit PyVal)
    (s : List Char) : List Char :=
  match extractBracket s with
  | some grp =>
    match lit grp with
    | Except.ok (PyVal.vlist items) => story_items_result catSo items
    | Except.ok _ => story_fallback catSo s
    | Except.error _ => story_fallback catSo s
  | none => story_fallback catSo s

/-- `parse_story_pin_media` (source lines 123-163).  The call to
`ast.literal_eval` is the parameter `lit`; an `Except.error` result models a
raised exception, caught by the surrounding `try`/`except` and routed to the
fallback. -/
def parse_story_pin_media (catSo : Char → Bool)
    (lit : List Char → Except Unit PyVal) : Option (List Char) → List Char
  | none => "NA".data
  | some s0 =>
    let s := storyNormalize catSo s0
    if pyLowerList s = "no data".data then "NA".data
    else story_try catSo lit s

theorem parse_story_some (catSo : Char → Bool)
    (lit : List Char → Except Unit PyVal) (s0 : List Char) :
    parse_story_pin_media catSo lit (some s0)
      = if pyLowerList (storyNormalize catSo s0) = "no data".data then "NA".data
        else story_try catSo lit (storyNormalize catSo s0) := rfl

/-- A literal decoder that always raises, exercising the `except` path. -/
def litFailAll : List Char → Except Unit PyVal := fun _ => Except.error ()

/-- `normalize_field_name` (source lines 165-187): raw label spellings,
lowered and trimmed, to canonical CSV column names. -/
def fieldMapping : List (List Char × String) :=
  [("url".data, "url"), ("title".data, "title"), ("details".data, "details"),
   ("image".data, "image"), ("is native".data, "is_native"),
   ("board id".data, "board_id"), ("board name".data, "board_name"),
   ("is video".data, "is_video"), ("ip address".data, "ip_address"),
   ("username".data, "username"), ("alt text".data, "alt_text"),
   ("canonical link".data, "canonical_link"),
   ("story pin media".data, "story_pin_media"), ("video".data, "video"),
   ("created at".data, "created_at"), ("alive".data, "alive"),
   ("is a repin".data, "is_a_repin"), ("private".data, "private")]

def normalize_field_name (name : List Char) : Option String :=
  (fieldMapping.find? (fun p => p.1 == pyStrip (pyLowerList name))).map (fun p => p.2)

/-- `CSV_FIELDS` (source lines 189-193): the schema-declared column order. -/
def CSV_FIELDS : List String :=
  ["url", "title", "details", "image", "is_native", "board_id", "board_name",
   "is_video", "ip_address", "username", "alt_text", "canonical_link",
   "story_pin_media", "video", "created_at", "alive", "is_a_repin", "private"]

/-- A record: canonical field key to sanitized value, in schema order. -/
abbrev PinRecord : Type := List (String × List Char)

/-- `current = {f: "NA" for f in CSV_FIELDS}` (source line 203). -/
def initRecord : PinRecord := CSV_FIELDS.map (fun f => (f, "NA".data))

/-- `current[k] = v`: update the (always-present) key in place. -/
def setField (r : PinRecord) (k : String) (v : List Char) : PinRecord :=
  r.map (fun p => if p.1 = k then (k, v) else p)

/-- `current[k]` / `current.get(k)`; the sentinel for a missing key (never
hit: every key of the schema is present from initialization). -/
def getField (r : PinRecord) (k : String) : List Char :=
  match r.find? (fun p => p.1 = k) with
  | some p => p.2
  | none => "NA".data

/-- `line.startswith("http://") or line.startswith("https://")`. -/
def startsWithUrl (l : List Char) : Bool :=
  (stripPrefixChars "http://".data l).isSome ||
    (stripPrefixChars "https://".data l).isSome

/-- `if current.get("url") and current["url"] != "NA"` (source lines 214, 237):
the url value is truthy (non-empty) and not the sentinel. -/
def urlQualifies (r : PinRecord) : Bool :=
  getField r "url" ≠ [] ∧ getField r "url" ≠ "NA".data

/-- The boolean-parsed fields (source line 229). -/
def boolFields : List String := ["is_native", "is_video", "alive", "is_a_repin", "private"]

/-- One iteration of the parsing loop (source lines 206-234) over the state
`(records, current)`. -/
def processLine (catSo : Char → Bool) (lit : List Char → Except Unit PyVal)
    (st : List PinRecord × PinRecord) (raw : List Char) :
    List PinRecord × PinRecord :=
  let line := pyStrip raw
  if line = [] then st
  else if startsWithUrl line then
    let st1 := if urlQualifies st.2 then (st.1 ++ [st.2], initRecord) else st
    (st1.1, setField st1.2 "url" (sanitize_value catSo (some line)))
  else if line.contains ':' then
    let key := pyStrip (line.takeWhile (fun c => c ≠ ':'))
    let val := pyStrip ((line.dropWhile (fun c => c ≠ ':')).drop 1)
    match normalize_field_name key with
    | none => st
    | some csv_key =>
      if boolFields.contains csv_key then
        (st.1, setField st.2 csv_key (parse_bool catSo (some val)))
      else if csv_key = "story_pin_media" then
        (st.1, setField st.2 csv_key (parse_story_pin_media catSo lit (some val)))
      else
        (st.1, setField st.2 csv_key (sanitize_value catSo (some val)))
  else st

/-- The whole parsing loop (source lines 206-238): fold the lines, then push
the final record iff its url field qualifies. -/
def runRecords (catSo : Char → Bool) (lit : List Char → Except Unit PyVal)
    (lines : List (List Char)) : List PinRecord :=
  let st := lines.foldl (processLine catSo lit) ([], initRecord)
  if urlQualifies st.2 then st.1 ++ [st.2] else st.1

/-- The defensive per-cell re-sanitization of the CSV writer loop
(source lines 244-253). -/
def safeCell (catSo : Char → Bool) (v : List Char) : List Char :=
  to_na_if_empty (remove_all_commas (strip_trailing_commas
    (replace_emojis_with_space catSo v)))

/-- The emitted data rows: one row per record, cells in `CSV_FIELDS` order
(source lines 241-254, `csv.DictWriter` with `fieldnames=CSV_FIELDS`). -/
def emitRows (catSo : Char → Bool) (recs : List PinRecord) :
    List (List (List Char)) :=
  recs.map (fun r => CSV_FIELDS.map (fun f => safeCell catSo (getField r f)))

theorem replace_emojis_congr (catSo : Char → Bool) (s : List Char)
    (h : ∀ c ∈ s, catIndep c = true) :
    replace_emojis_with_space catSo s = replace_emojis_with_space catFalse s := by
  unfold replace_emojis_with_space
  by_cases hs : s = []
  · simp [hs]
  · rw [if_neg hs, if_neg hs]
    have : s.map (fun ch => if is_emoji_char catSo ch then ' ' else ch)
        = s.map (fun ch => if is_emoji_char catFalse ch then ' ' else ch) :=
      List.map_congr_left (fun c hc => by rw [is_emoji_char_congr catSo c (h c hc)])
    rw [this]

theorem sanitize_value_congr (catSo : Char → Bool) (s : List Char)
    (h : ∀ c ∈ s, catIndep c = true) :
    sanitize_value catSo (some s) = sanitize_value catFalse (some s) := by
  simp only [sanitize_value]
  rw [replace_emojis_congr catSo s h]

theorem parse_bool_congr (catSo : Char → Bool) (s : List Char)
    (h : ∀ c ∈ s, catIndep c = true) :
    parse_bool catSo (some s) = parse_bool catFalse (some s) := by
  simp only [parse_bool]
  rw [replace_emojis_congr catSo s h]

theorem prefix_isInfix {α : Type} {l1 l2 : List α} (h : l1 <+: l2) : l1 <:+: l2 := by
  obtain ⟨t, ht⟩ := h
  exact ⟨[], t, by simp [ht]⟩

theorem suffix_isInfix {α : Type} {l1 l2 : List α} (h : l1 <:+ l2) : l1 <:+: l2 := by
  obtain ⟨t, ht⟩ := h
  exact ⟨t, [], by simp [ht]⟩

theorem pyStrip_infix_self (l : List Char) : pyStrip l <:+: l :=
  (prefix_isInfix (List.rdropWhile_prefix pySpace (l.dropWhile pySpace))).trans
    (suffix_isInfix (List.dropWhile_suffix pySpace))

theorem mem_pyStrip {c : Char} {l : List Char} (h : c ∈ pyStrip l) : c ∈ l :=
  (pyStrip_infix_self l).sublist.mem h

theorem strip_trailing_infix_self (l : List Char) : strip_trailing_commas l <:+: l :=
  prefix_isInfix (List.rdropWhile_prefix _ l)

theorem mem_strip_trailing {c : Char} {l : List Char}
    (h : c ∈ strip_trailing_commas l) : c ∈ l :=
  (strip_trailing_infix_self l).sublist.mem h

theorem mem_collapseRuns : ∀ (l : List Char) (c : Char),
    c ∈ collapseRuns l → c = ' ' ∨ c ∈ l := by
  intro l
  induction l with
  | nil => intro c h; simp [collapseRuns] at h
  | cons a t ih =>
    intro c h
    cases t with
    | nil =>
      simp only [collapseRuns] at h
      split at h
      · simp at h; exact Or.inl h
      · simp at h; exact Or.inr (by simp [h])
    | cons b r =>
      simp only [collapseRuns] at h
      split at h
      · rcases ih c h with h' | h'
        · exact Or.inl h'
        · exact Or.inr (List.mem_cons_of_mem a h')
      · rcases List.mem_cons.mp h with h' | h'
        · by_cases hpa : pySpace a = true
          · subst h'; simp [hpa]
          · subst h'; simp [hpa]
        · rcases ih c h' with h'' | h''
          · exact Or.inl h''
          · exact Or.inr (List.mem_cons_of_mem a h'')

theorem collapseRuns_ws : ∀ (l : List Char) (c : Char),
    c ∈ collapseRuns l → pySpace c = true → c = ' ' := by
  intro l
  induction l with
  | nil => intro c h; simp [collapseRuns] at h
  | cons a t ih =>
    intro c h hws
    cases t with
    | nil =>
      simp only [collapseRuns] at h
      split at h
      next => simpa using h
      next hcond =>
        simp at h
        subst h
        exact absurd hws (by simpa using hcond)
    | cons b r =>
      simp only [collapseRuns] at h
      split at h
      · exact ih c h hws
      next hcond =>
        rcases List.mem_cons.mp h with h' | h'
        · by_cases hpa : pySpace a = true
          · simpa [hpa] using h'
          · subst h'
            rw [if_neg hpa] at hws
            exact absurd hws hpa
        · exact ih c h' hws

/-- No two adjacent Python-whitespace characters occur in the list. -/
def wsRunFree (l : List Char) : Prop :=
  ∀ c d : Char, pySpace c = true → pySpace d = true → ¬ [c, d] <:+: l

theorem wsRunFree_infix {l1 l2 : List Char} (h : l1 <:+: l2)
    (hw : wsRunFree l2) : wsRunFree l1 :=
  fun c d hc hd hi => hw c d hc hd (hi.trans h)

theorem wsRunFree_of_no_ws {l : List Char}
    (h : ∀ c ∈ l, pySpace c = false) : wsRunFree l := by
  intro c d hc _ hi
  have : c ∈ l := hi.sublist.mem (by simp)
  rw [h c this] at hc
  exact Bool.noConfusion hc

theorem collapseRuns_head (b : Char) (r : List Char) (hb : pySpace b = false) :
    ∃ t, collapseRuns (b :: r) = b :: t := by
  cases r with
  | nil => exact ⟨[], by simp [collapseRuns, hb]⟩
  | cons d r' =>
    refine ⟨collapseRuns (d :: r'), ?_⟩
    simp [collapseRuns, hb]

theorem collapseRuns_wsRunFree : ∀ l : List Char, wsRunFree (collapseRuns l) := by
  intro l
  induction l with
  | nil =>
    intro c d _ _ hi
    simp only [collapseRuns] at hi
    exact absurd (List.eq_nil_of_infix_nil hi) (by simp)
  | cons a t ih =>
    cases t with
    | nil =>
      intro c d _ _ hi
      have h2 : 2 ≤ (collapseRuns [a]).length := by
        simpa using hi.sublist.length_le
      have h1 : (collapseRuns [a]).length ≤ 1 := by
        simp only [collapseRuns]
        split <;> simp
      omega
    | cons b r =>
      intro c d hc hd hi
      simp only [collapseRuns] at hi
      split at hi
      next hcond => exact ih c d hc hd hi
      next hcond =>
        rcases List.infix_cons_iff.mp hi with hpre | hinf
        · obtain ⟨u, hu⟩ := hpre
          by_cases hpa : pySpace a = true
          · have hpb : pySpace b = false := by
              by_contra hb
              exact hcond ⟨hpa, by simpa using hb⟩
            obtain ⟨t', ht'⟩ := collapseRuns_head b r hpb
            rw [ht'] at hu
            have : c = ' ' ∧ d = b := by
              have := hu
              simp only [List.cons_append, List.nil_append, if_pos hpa] at this
              exact ⟨(List.cons_eq_cons.mp this).1,
                (List.cons_eq_cons.mp (List.cons_eq_cons.mp this).2).1⟩
            rw [this.2] at hd
            rw [hd] at hpb
            exact Bool.noConfusion hpb
          · have : c = a := by
              simp only [List.cons_append, List.nil_append, if_neg hpa] at hu
              exact (List.cons_eq_cons.mp hu).1
            rw [this] at hc
            exact hpa hc
        · exact ih c d hc hd hinf

theorem collapseRuns_fix : ∀ l : List Char,
    (∀ c ∈ l, pySpace c = true → c = ' ') → wsRunFree l → collapseRuns l = l := by
  intro l
  induction l with
  | nil => intro _ _; rfl
  | cons a t ih =>
    intro hws hrf
    cases t with
    | nil =>
      simp only [collapseRuns]
      split
      next hpa => rw [hws a (by simp) hpa]
      next hpa => rfl
    | cons b r =>
      simp only [collapseRuns]
      have hnotboth : ¬ (pySpace a = true ∧ pySpace b = true) := by
        rintro ⟨ha, hb⟩
        exact hrf a b ha hb ⟨[], r, by simp⟩
      rw [if_neg hnotboth]
      have htail : collapseRuns (b :: r) = b :: r := by
        refine ih ?_ ?_
        · intro c hcmem hcws
          exact hws c (List.mem_cons_of_mem a hcmem) hcws
        · exact wsRunFree_infix ⟨[a], [], by simp⟩ hrf
      rw [htail]
      by_cases hpa : pySpace a = true
      · rw [if_pos hpa, hws a (by simp) hpa]
      · rw [if_neg hpa]

theorem is_emoji_char_ascii (catSo : Char → Bool) (c : Char) (h : c.toNat < 0x85) :
    is_emoji_char catSo c = false := by
  have hb : inBlocks c.toNat = false := by
    simp only [inBlocks, decide_eq_false_iff_not]
    omega
  have h1 : ¬ (c.toNat = 0x200D ∨ c.toNat = 0xFE0E ∨ c.toNat = 0xFE0F) := by omega
  have h2 : ¬ (0x1F3FB ≤ c.toNat ∧ c.toNat ≤ 0x1F3FF) := by omega
  have h4 : ¬ (catSo c = true ∧ 0x1F000 ≤ c.toNat) := by
    rintro ⟨_, hge⟩; omega
  simp [is_emoji_char, h1, h2, hb, h4]

theorem dropWhile_head_not {α : Type} {p : α → Bool} : ∀ {l : List α} {a : α},
    (l.dropWhile p).head? = some a → p a = false := by
  intro l
  induction l with
  | nil => intro a h; simp at h
  | cons x xs ih =>
    intro a h
    by_cases hx : p x = true
    · rw [List.dropWhile_cons_of_pos hx] at h
      exact ih h
    · rw [List.dropWhile_cons_of_neg hx] at h
      simp only [List.head?_cons, Option.some_inj] at h
      rw [← h]
      exact Bool.not_eq_true _ ▸ hx

theorem pyStrip_head_not {l : List Char} {a : Char}
    (h : (pyStrip l).head? = some a) : pySpace a = false := by
  obtain ⟨t, ht⟩ := List.rdropWhile_prefix pySpace (l.dropWhile pySpace)
  have hh : (List.dropWhile pySpace l).head? = some a := by
    rw [← ht]
    cases hX : pyStrip l with
    | nil => rw [hX] at h; simp at h
    | cons x xs =>
      rw [hX] at h
      simp only [List.head?_cons, Option.some_inj] at h
      subst h
      unfold pyStrip at hX
      rw [hX]
      simp
  exact dropWhile_head_not hh

theorem pyStrip_idem (l : List Char) : pyStrip (pyStrip l) = pyStrip l := by
  have h1 : List.dropWhile pySpace (pyStrip l) = pyStrip l := by
    cases hX : pyStrip l with
    | nil => simp
    | cons x xs =>
      have hx : pySpace x = false := pyStrip_head_not (by rw [hX]; rfl)
      rw [List.dropWhile_cons_of_neg (by simp [hx])]
  show (List.dropWhile pySpace (pyStrip l)).rdropWhile pySpace = pyStrip l
  rw [h1]
  exact List.rdropWhile_idempotent pySpace _

theorem replace_emojis_chars (catSo : Char → Bool) (s : List Char) :
    ∀ c ∈ replace_emojis_with_space catSo s, is_emoji_char catSo c = false := by
  intro c hc
  unfold replace_emojis_with_space at hc
  split at hc
  · simp at hc
  · have hc' := mem_pyStrip hc
    rcases mem_collapseRuns _ c hc' with h' | h'
    · rw [h']; exact is_emoji_char_space catSo
    · rcases List.mem_map.mp h' with ⟨d, _, hd⟩
      cases hed : is_emoji_char catSo d with
      | true => simp [hed] at hd; rw [← hd]; exact is_emoji_char_space catSo
      | false => simp [hed] at hd; rw [← hd]; exact hed

theorem sanitize_chars (catSo : Char → Bool) (x : List Char) :
    ∀ c ∈ sanitize_value catSo (some x),
      c ≠ ',' ∧ is_emoji_char catSo c = false ∧ (pySpace c = true → c = ' ') := by
  intro c hc
  simp only [sanitize_value] at hc
  split at hc
  · have : c = 'N' ∨ c = 'A' := by simpa using hc
    rcases this with h | h <;> subst h <;>
      exact ⟨by decide, is_emoji_char_ascii catSo _ (by decide), by decide⟩
  · simp only [to_na_if_empty] at hc
    split at hc
    · have : c = 'N' ∨ c = 'A' := by simpa using hc
      rcases this with h | h <;> subst h <;>
        exact ⟨by decide, is_emoji_char_ascii catSo _ (by decide), by decide⟩
    · have hc1 : c ∈ collapseRuns (remove_all_commas (strip_trailing_commas
          (pyStrip (replace_emojis_with_space catSo x)))) :=
        mem_pyStrip (mem_pyStrip hc)
      refine ⟨?_, ?_, collapseRuns_ws _ c hc1⟩
      · rcases mem_collapseRuns _ c hc1 with h' | h'
        · rw [h']; decide
        · have := List.mem_filter.mp h'
          simpa using this.2
      · rcases mem_collapseRuns _ c hc1 with h' | h'
        · rw [h']; exact is_emoji_char_space catSo
        · have h2 := (List.mem_filter.mp h').1
          have h3 := mem_strip_trailing h2
          have h4 := mem_pyStrip h3
          exact replace_emojis_chars catSo x c h4

theorem sanitize_wsRunFree (catSo : Char → Bool) (x : List Char) :
    wsRunFree (sanitize_value catSo (some x)) := by
  simp only [sanitize_value]
  split
  · exact wsRunFree_of_no_ws (by decide)
  · simp only [to_na_if_empty]
    split
    · exact wsRunFree_of_no_ws (by decide)
    · exact wsRunFree_infix
        ((pyStrip_infix_self _).trans (pyStrip_infix_self _)) (collapseRuns_wsRunFree _)

theorem sanitize_ne_nil (catSo : Char → Bool) (x : List Char) :
    sanitize_value catSo (some x) ≠ [] := by
  simp only [sanitize_value]
  split
  · decide
  · simp only [to_na_if_empty]
    split
    · decide
    next hne => exact hne

theorem sanitize_pyStrip_fix (catSo : Char → Bool) (x : List Char) :
    pyStrip (sanitize_value catSo (some x)) = sanitize_value catSo (some x) := by
  simp only [sanitize_value]
  split
  · decide
  · simp only [to_na_if_empty]
    split
    · decide
    · exact pyStrip_idem _

theorem rdropWhile_fix_of {α : Type} {p : α → Bool} {l : List α}
    (h : ∀ a, l.getLast? = some a → p a = false) : l.rdropWhile p = l := by
  rw [List.rdropWhile_eq_self_iff]
  intro hl
  have hsome := List.getLast?_eq_getLast l hl
  have := h (l.getLast hl) hsome
  simp [this]

theorem pyStrip_getLast?_not {l : List Char} {a : Char}
    (h : (pyStrip l).getLast? = some a) : pySpace a = false := by
  have hl : pyStrip l ≠ [] := by
    intro he
    rw [he] at h
    simp at h
  have hlast := List.rdropWhile_last_not pySpace (l.dropWhile pySpace) hl
  have ha : a = (pyStrip l).getLast hl := by
    rw [List.getLast?_eq_getLast _ hl] at h
    exact (Option.some_inj.mp h).symm
  subst ha
  cases hb : pySpace ((pyStrip l).getLast hl) with
  | false => rfl
  | true => exact absurd hb hlast

theorem sanitize_strip_trailing_fix (catSo : Char → Bool) (x : List Char) :
    strip_trailing_commas (sanitize_value catSo (some x))
      = sanitize_value catSo (some x) := by
  unfold strip_trailing_commas
  apply rdropWhile_fix_of
  intro a ha
  have hmem : a ∈ sanitize_value catSo (some x) := List.mem_of_getLast?_eq_some ha
  have h1 := (sanitize_chars catSo x a hmem).1
  have h2 : pySpace a = false := by
    apply pyStrip_getLast?_not (l := sanitize_value catSo (some x))
    rw [sanitize_pyStrip_fix]
    exact ha
  simp [h1, h2]

/-- C2: for every input string, `sanitize_value` returns a string containing
no comma and no character the code-point classifier deems emoji-like, and
never two consecutive spaces. -/
theorem claim_C2 (catSo : Char → Bool) (x : List Char) :
    ',' ∉ sanitize_value catSo (some x) ∧
    (∀ c ∈ sanitize_value catSo (some x), is_emoji_char catSo c = false) ∧
    ¬ [' ', ' '] <:+: sanitize_value catSo (some x) := by
  refine ⟨?_, ?_, ?_⟩
  · intro hc
    exact (sanitize_chars catSo x ',' hc).1 rfl
  · intro c hc
    exact (sanitize_chars catSo x c hc).2.1
  · intro hinf
    exact sanitize_wsRunFree catSo x ' ' ' ' (by decide) (by decide) hinf

/-- Witness for C2 at the concrete input `"a, b"`. -/
theorem claim_C2_witness :
    ',' ∉ sanitize_value catFalse (some "a, b".data) ∧
    is_emoji_char catFalse 'a' = false := by
  refine ⟨(claim_C2 catFalse "a, b".data).1, ?_⟩
  exact (claim_C2 catFalse "a, b".data).2.1 'a' (by decide)

/-- C4 (counterexample): `sanitize` is not idempotent.  `"No, data"`
sanitizes to `"No data"` (the sentinel check runs before comma removal), and
sanitizing `"No data"` again yields `"NA"`. -/
theorem claim_C4_cex :
    ¬ ∀ (catSo : Char → Bool) (x : List Char),
        sanitize_value catSo (some (sanitize_value catSo (some x)))
          = sanitize_value catSo (some x) := by
  intro h
  have hx := h catFalse "No, data".data
  revert hx
  decide

/-- C4 (amended): `sanitize` is idempotent on every input whose sanitized
value does not case-insensitively equal `"no data"`; the counterexample above
is exactly the excluded case. -/
theorem claim_C4 (catSo : Char → Bool) (x : List Char)
    (h : pyLowerList (sanitize_value catSo (some x)) ≠ "no data".data) :
    sanitize_value catSo (some (sanitize_value catSo (some x)))
      = sanitize_value catSo (some x) := by
  have hchars := sanitize_chars catSo x
  have hwsf := sanitize_wsRunFree catSo x
  have hne := sanitize_ne_nil catSo x
  have hstripfix := sanitize_pyStrip_fix catSo x
  have htrailfix := sanitize_strip_trailing_fix catSo x
  have hcoll : collapseRuns (sanitize_value catSo (some x))
      = sanitize_value catSo (some x) :=
    collapseRuns_fix _ (fun c hc => (hchars c hc).2.2) hwsf
  have hmap : (sanitize_value catSo (some x)).map
      (fun ch => if is_emoji_char catSo ch then ' ' else ch)
      = sanitize_value catSo (some x) := by
    have : ∀ c ∈ sanitize_value catSo (some x),
        (if is_emoji_char catSo c then ' ' else c) = id c := by
      intro c hc
      simp [(hchars c hc).2.1]
    rw [List.map_congr_left this, List.map_id]
  have hrepl : replace_emojis_with_space catSo (sanitize_value catSo (some x))
      = sanitize_value catSo (some x) := by
    unfold replace_emojis_with_space
    rw [if_neg hne, hmap, hcoll, hstripfix]
  have hfilter : remove_all_commas (sanitize_value catSo (some x))
      = sanitize_value catSo (some x) := by
    unfold remove_all_commas
    rw [List.filter_eq_self.mpr]
    intro a ha
    simpa using (hchars a ha).1
  generalize hgen : sanitize_value catSo (some x) = y at *
  simp only [sanitize_value]
  rw [hrepl, hstripfix, htrailfix, if_neg h, hfilter, hcoll, hstripfix]
  simp only [to_na_if_empty]
  rw [hstripfix, if_neg hne]

/-- Witness for C4 at the concrete input `"hello"`. -/
theorem claim_C4_witness :
    sanitize_value catFalse (some (sanitize_value catFalse (some "hello".data)))
      = sanitize_value catFalse (some "hello".data) :=
  claim_C4 catFalse "hello".data (by decide)

/-- C6: `parse_bool` always lands in the tri-state set; it answers
`"true"`/`"false"` exactly when the normalized text (emoji removal, trailing
strip, trim, comma removal, lower-casing) equals that literal — no fuzzy
matching — and it satisfies the spec's four vectors, plus the sentinel for
absent input. -/
theorem claim_C6 (catSo : Char → Bool) (s : List Char) :
    (parse_bool catSo (some s) = "true".data ∨
     parse_bool catSo (some s) = "false".data ∨
     parse_bool catSo (some s) = "NA".data) ∧
    (parse_bool catSo (some s) = "true".data ↔
      pyLowerList (remove_all_commas (pyStrip (strip_trailing_commas
        (replace_emojis_with_space catSo s)))) = "true".data) ∧
    (parse_bool catSo (some s) = "false".data ↔
      pyLowerList (remove_all_commas (pyStrip (strip_trailing_commas
        (replace_emojis_with_space catSo s)))) = "false".data) ∧
    parse_bool catSo (some "True".data) = "true".data ∧
    parse_bool catSo (some "FALSE, ".data) = "false".data ∧
    parse_bool catSo (some "No data".data) = "NA".data ∧
    parse_bool catSo (some [] ) = "NA".data ∧
    parse_bool catSo none = "NA".data := by
  refine ⟨?_, ?_, ?_, ?_, ?_, ?_, ?_, rfl⟩
  · simp only [parse_bool]
    split_ifs <;> simp
  · have hft : ("false".data : List Char) ≠ "true".data := by decide
    have hnt : ("NA".data : List Char) ≠ "true".data := by decide
    simp only [parse_bool]
    split_ifs with h1 h2
    · simp [h1]
    · simp [h1, h2, hft]
    · simp [h1, hnt]
  · have htf : ("true".data : List Char) ≠ "false".data := by decide
    have hnf : ("NA".data : List Char) ≠ "false".data := by decide
    simp only [parse_bool]
    split_ifs with h1 h2
    · simp [h1, htf]
    · simp [h2]
    · simp [h2, hnf]
  · rw [parse_bool_congr catSo _ (by decide)]; decide
  · rw [parse_bool_congr catSo _ (by decide)]; decide
  · rw [parse_bool_congr catSo _ (by decide)]; decide
  · rw [parse_bool_congr catSo _ (by decide)]; decide

/-- Witness for C6: the exact-match characterization applied at `" true,"`. -/
theorem claim_C6_witness :
    parse_bool catFalse (some " true,".data) = "true".data :=
  ((claim_C6 catFalse " true,".data).2.1).mpr (by decide)

/-- C1: parser-level totality.  Absent input yields the sentinel in all three
parsers; a raised decoding error (`Except.error`, caught by the
`try`/`except`) silently routes `parse_story_pin_media` to the regex
fallback; and when the fallback finds nothing the sentinel `"NA"` is
returned.  (In the embedding every function is total by construction; the
decoder is the only fallible call and its failure is handled, never
propagated.) -/
theorem claim_C1 (catSo : Char → Bool) (lit : List Char → Except Unit PyVal)
    (s g : List Char) :
    sanitize_value catSo none = "NA".data ∧
    parse_bool catSo none = "NA".data ∧
    parse_story_pin_media catSo lit none = "NA".data ∧
    (pyLowerList (storyNormalize catSo s) ≠ "no data".data →
      extractBracket (storyNormalize catSo s) = some g →
      lit g = Except.error () →
      parse_story_pin_media catSo lit (some s)
        = story_fallback catSo (storyNormalize catSo s)) ∧
    (findImages (storyNormalize catSo s) = [] →
      parse_story_pin_media catSo litFailAll (some s) = "NA".data) := by
  refine ⟨rfl, rfl, rfl, ?_, ?_⟩
  · intro h1 h2 h3
    simp only [parse_story_pin_media, story_try, h2, h3, if_neg h1]
  · intro hfi
    have hfb : story_fallback catSo (storyNormalize catSo s) = "NA".data := by
      simp [story_fallback, hfi]
    by_cases h1 : pyLowerList (storyNormalize catSo s) = "no data".data
    · simp only [parse_story_pin_media, if_pos h1]
    · simp only [parse_story_pin_media, story_try, if_neg h1]
      cases hext : extractBracket (storyNormalize catSo s) with
      | none => simpa [hext] using hfb
      | some g' => simpa [hext, litFailAll] using hfb

/-- Witness for C1: the always-raising decoder on a bracket-less garbled
input ends in the sentinel; absent input gives the sentinel. -/
theorem claim_C1_witness :
    parse_story_pin_media catFalse litFailAll (some "garbled [ not json".data)
      = "NA".data ∧ sanitize_value catFalse none = "NA".data := by
  have h := claim_C1 catFalse litFailAll "garbled [ not json".data []
  exact ⟨h.2.2.2.2 (by decide), h.1⟩

/-- The §8 structured-list vector: `[{'image': 'a'}, {'image': 'b👍'}]`. -/
def storyVec1 : List Char :=
  "[\x7b".data ++ [quoteChar] ++ "image".data ++ [quoteChar] ++ ": ".data ++
  [quoteChar] ++ "a".data ++ [quoteChar] ++ "\x7d, \x7b".data ++ [quoteChar] ++
  "image".data ++ [quoteChar] ++ ": ".data ++ [quoteChar] ++ "b".data ++
  [Char.ofNat 0x1F44D] ++ [quoteChar] ++ "\x7d]".data

/-- The vector after emoji replacement: the text that reaches the decoder
(the thumbs-up has become a space inside the second value). -/
def storyVec1Group : List Char :=
  "[\x7b".data ++ [quoteChar] ++ "image".data ++ [quoteChar] ++ ": ".data ++
  [quoteChar] ++ "a".data ++ [quoteChar] ++ "\x7d, \x7b".data ++ [quoteChar] ++
  "image".data ++ [quoteChar] ++ ": ".data ++ [quoteChar] ++ "b ".data ++
  [quoteChar] ++ "\x7d]".data

/-- What `ast.literal_eval` returns on `storyVec1Group`: a list of two
single-key dicts. -/
def storyVec1Val : PyVal :=
  PyVal.vlist [PyVal.vdict [("image".data, PyVal.vstr "a".data)],
    PyVal.vdict [("image".data, PyVal.vstr "b ".data)]]

/-- A decoder instance agreeing with `ast.literal_eval` on the vector. -/
def litC7 : List Char → Except Unit PyVal :=
  fun s => if s = storyVec1Group then Except.ok storyVec1Val else Except.error ()

/-- C7: the spec's structured-list vectors.  Under the (hypothesised)
behaviour of the literal decoder on the emoji-replaced bracket group, the
list vector yields `"a|b"` (emoji stripped from the inner value); `"No data"`
yields `"NA"`; and a garbled input with no decodable bracket falls through to
the regex fallback, which here finds nothing, returning `"NA"` — with no
exception path in the model. -/
theorem claim_C7 (catSo : Char → Bool) (lit : List Char → Except Unit PyVal)
    (hlit : lit storyVec1Group = Except.ok storyVec1Val) :
    parse_story_pin_media catSo lit (some storyVec1) = "a|b".data ∧
    parse_story_pin_media catSo lit (some "No data".data) = "NA".data ∧
    parse_story_pin_media catSo lit (some "garbled [ not json".data)
      = "NA".data := by
  refine ⟨?_, ?_, ?_⟩
  · have hnorm : storyNormalize catSo storyVec1 = storyVec1Group := by
      unfold storyNormalize
      rw [replace_emojis_congr catSo _ (by decide)]
      decide
    have hext : extractBracket storyVec1Group = some storyVec1Group := by decide
    have ha : sanitize_value catSo (some "a".data) = "a".data := by
      rw [sanitize_value_congr catSo _ (by decide)]; decide
    have hb : sanitize_value catSo (some "b ".data) = "b".data := by
      rw [sanitize_value_congr catSo _ (by decide)]; decide
    have hf1 : story_item_image catSo
        (PyVal.vdict [("image".data, PyVal.vstr "a".data)]) = some "a".data := by
      show (if sanitize_value catSo (some "a".data) ≠ "NA".data
        then some (sanitize_value catSo (some "a".data)) else none) = some "a".data
      rw [ha]
      decide
    have hf2 : story_item_image catSo
        (PyVal.vdict [("image".data, PyVal.vstr "b ".data)]) = some "b".data := by
      show (if sanitize_value catSo (some "b ".data) ≠ "NA".data
        then some (sanitize_value catSo (some "b ".data)) else none) = some "b".data
      rw [hb]
      decide
    rw [parse_story_some, hnorm,
      if_neg (show ¬ pyLowerList storyVec1Group = "no data".data by decide)]
    have htry : story_try catSo lit storyVec1Group
        = story_items_result catSo [PyVal.vdict [("image".data, PyVal.vstr "a".data)],
            PyVal.vdict [("image".data, PyVal.vstr "b ".data)]] := by
      simp only [story_try, hext, hlit, storyVec1Val]
    rw [htry]
    simp only [story_items_result, List.filterMap_cons_some hf1,
      List.filterMap_cons_some hf2, List.filterMap_nil]
    decide
  · have hnorm : storyNormalize catSo "No data".data = "No data".data := by
      unfold storyNormalize
      rw [replace_emojis_congr catSo _ (by decide)]
      decide
    rw [parse_story_some, hnorm,
      if_pos (show pyLowerList "No data".data = "no data".data by decide)]
  · have hnorm : storyNormalize catSo "garbled [ not json".data
        = "garbled [ not json".data := by
      unfold storyNormalize
      rw [replace_emojis_congr catSo _ (by decide)]
      decide
    have hext : extractBracket "garbled [ not json".data = none := by decide
    have hfi : findImages "garbled [ not json".data = [] := by decide
    rw [parse_story_some, hnorm,
      if_neg (show ¬ pyLowerList "garbled [ not json".data = "no data".data
        by decide)]
    simp only [story_try, hext]
    simp [story_fallback, hfi]

/-- Witness for C7: the decoder instance `litC7` satisfies the hypothesis. -/
theorem claim_C7_witness :
    parse_story_pin_media catFalse litC7 (some storyVec1) = "a|b".data :=
  (claim_C7 catFalse litC7 (by simp [litC7])).1

/-- C5 (counterexample): the engine has no continuation-append mechanism.
With `details` already holding `"D"`, the free-text line `"xyz"` is dropped:
the emitted record's details field is `"D"`, not the space-joined re-sanitized
append the claim requires. -/
theorem claim_C5_cex :
    (runRecords catFalse litFailAll
        ["https://a".data, "details: D".data, "xyz".data]).map
      (fun r => getField r "details") = ["D".data] ∧
    "D".data ≠ sanitize_value catFalse
      (some ("D".data ++ [' '] ++ sanitize_value catFalse (some "xyz".data))) := by
  constructor
  · decide
  · decide

/-- C5 (amended): every non-blank line that neither matches the URL prefix
nor contains a colon is dropped unconditionally — the state is unchanged,
whatever the details field holds. -/
theorem claim_C5 (catSo : Char → Bool) (lit : List Char → Except Unit PyVal)
    (st : List PinRecord × PinRecord) (raw : List Char)
    (h1 : pyStrip raw ≠ [])
    (h2 : startsWithUrl (pyStrip raw) = false)
    (h3 : (pyStrip raw).contains ':' = false) :
    processLine catSo lit st raw = st := by
  simp only [processLine]
  rw [if_neg h1, if_neg (by simp [h2]),
    if_neg (fun hx => Bool.noConfusion (h3 ▸ hx))]

/-- Witness for C5 at the concrete dropped line `"xyz"`. -/
theorem claim_C5_witness :
    processLine catFalse litFailAll ([], initRecord) "xyz".data
      = ([], initRecord) :=
  claim_C5 catFalse litFailAll ([], initRecord) "xyz".data
    (by decide) (by decide) (by decide)

theorem split_first_colon (k v : List Char) (hk : ':' ∉ k) :
    (k ++ ':' :: v).takeWhile (fun c => c ≠ ':') = k ∧
    ((k ++ ':' :: v).dropWhile (fun c => c ≠ ':')).drop 1 = v := by
  induction k with
  | nil => constructor <;> simp [List.takeWhile_cons, List.dropWhile_cons]
  | cons a k ih =>
    have ha : a ≠ ':' := fun he => hk (he ▸ List.mem_cons_self a k)
    have ih' := ih (fun hm => hk (List.mem_cons_of_mem a hm))
    constructor
    · simp only [List.cons_append, List.takeWhile_cons, decide_eq_true_eq]
      rw [if_pos ha, ih'.1]
    · simp only [List.cons_append, List.dropWhile_cons]
      rw [if_pos (by simp [ha]), ih'.2]

/-- C9: a recognized key/value line splits at the first colon only, so the
value keeps later colons; concretely `"canonical link: https://x"` assigns
`"https://x"` to the canonical_link field. -/
theorem claim_C9 (catSo : Char → Bool) (lit : List Char → Except Unit PyVal)
    (recs : List PinRecord) (cur : PinRecord) (k v : List Char)
    (hk : ':' ∉ k) :
    ((k ++ ':' :: v).takeWhile (fun c => c ≠ ':') = k ∧
     ((k ++ ':' :: v).dropWhile (fun c => c ≠ ':')).drop 1 = v) ∧
    processLine catSo lit (recs, cur) "canonical link: https://x".data
      = (recs, setField cur "canonical_link" "https://x".data) := by
  refine ⟨split_first_colon k v hk, ?_⟩
  have hv : sanitize_value catSo (some "https://x".data) = "https://x".data := by
    rw [sanitize_value_congr catSo _ (by decide)]
    decide
  have hstep : processLine catSo lit (recs, cur) "canonical link: https://x".data
      = (recs, setField cur "canonical_link"
          (sanitize_value catSo (some "https://x".data))) := rfl
  rw [hstep, hv]

/-- Witness for C9: the split at `"a:b:c"` and the concrete assignment. -/
theorem claim_C9_witness :
    (("a".data ++ ':' :: "b:c".data).takeWhile (fun c => c ≠ ':') = "a".data ∧
     (("a".data ++ ':' :: "b:c".data).dropWhile (fun c => c ≠ ':')).drop 1
       = "b:c".data) ∧
    processLine catFalse litFailAll ([], initRecord)
        "canonical link: https://x".data
      = ([], setField initRecord "canonical_link" "https://x".data) :=
  claim_C9 catFalse litFailAll [] initRecord "a".data "b:c".data (by decide)

/-- C3: the anchor-on-prefix scenario.  The four-line input yields exactly two
records, in order, with the stated url and title fields; a URL-prefixed line
flushes the pending record exactly when its url field already qualifies
(truthy and non-sentinel); at end of input the pending record is emitted iff
its url field qualifies. -/
theorem claim_C3 (catSo : Char → Bool) (lit : List Char → Except Unit PyVal) :
    (runRecords catSo lit
        ["https://a".data, "title: T1".data,
         "https://b".data, "title: T2".data]).map
      (fun r => (getField r "url", getField r "title"))
      = [("https://a".data, "T1".data), ("https://b".data, "T2".data)] ∧
    (∀ (recs : List PinRecord) (cur : PinRecord) (raw : List Char),
      startsWithUrl (pyStrip raw) = true → pyStrip raw ≠ [] →
      processLine catSo lit (recs, cur) raw
        = if urlQualifies cur then
            (recs ++ [cur],
             setField initRecord "url" (sanitize_value catSo (some (pyStrip raw))))
          else
            (recs, setField cur "url" (sanitize_value catSo (some (pyStrip raw))))) ∧
    (∀ lines : List (List Char), runRecords catSo lit lines
        = (let st := lines.foldl (processLine catSo lit) ([], initRecord)
           if urlQualifies st.2 then st.1 ++ [st.2] else st.1)) := by
  refine ⟨?_, ?_, fun lines => rfl⟩
  · have hA : sanitize_value catSo (some "https://a".data) = "https://a".data := by
      rw [sanitize_value_congr catSo _ (by decide)]; decide
    have hB : sanitize_value catSo (some "https://b".data) = "https://b".data := by
      rw [sanitize_value_congr catSo _ (by decide)]; decide
    have hT1 : sanitize_value catSo (some "T1".data) = "T1".data := by
      rw [sanitize_value_congr catSo _ (by decide)]; decide
    have hT2 : sanitize_value catSo (some "T2".data) = "T2".data := by
      rw [sanitize_value_congr catSo _ (by decide)]; decide
    have e1 : processLine catSo lit ([], initRecord) "https://a".data
        = ([], setField initRecord "url"
            (sanitize_value catSo (some "https://a".data))) := rfl
    simp only [runRecords, List.foldl_cons, List.foldl_nil]
    rw [e1, hA]
    have e2 : processLine catSo lit
        ([], setField initRecord "url" "https://a".data) "title: T1".data
        = ([], setField (setField initRecord "url" "https://a".data) "title"
            (sanitize_value catSo (some "T1".data))) := rfl
    rw [e2, hT1]
    have e3 : processLine catSo lit
        ([], setField (setField initRecord "url" "https://a".data) "title"
          "T1".data) "https://b".data
        = ([setField (setField initRecord "url" "https://a".data) "title"
            "T1".data],
           setField initRecord "url"
             (sanitize_value catSo (some "https://b".data))) := rfl
    rw [e3, hB]
    have e4 : processLine catSo lit
        ([setField (setField initRecord "url" "https://a".data) "title"
          "T1".data], setField initRecord "url" "https://b".data)
        "title: T2".data
        = ([setField (setField initRecord "url" "https://a".data) "title"
            "T1".data],
           setField (setField initRecord "url" "https://b".data) "title"
             (sanitize_value catSo (some "T2".data))) := rfl
    rw [e4, hT2]
    decide
  · intro recs cur raw hurl hne
    simp only [processLine]
    rw [if_neg hne, if_pos hurl]
    by_cases hq : urlQualifies cur = true
    · simp only [hq, if_true]
    · simp only [Bool.not_eq_true] at hq
      simp only [hq, Bool.false_eq_true, if_false]

/-- Witness for C3: a URL line arriving while the pending url qualifies
flushes the record. -/
theorem claim_C3_witness :
    processLine catFalse litFailAll
        ([], setField initRecord "url" "https://a".data) "https://b".data
      = ([setField initRecord "url" "https://a".data],
         setField initRecord "url" "https://b".data) := by
  have h := (claim_C3 catFalse litFailAll).2.1 []
    (setField initRecord "url" "https://a".data) "https://b".data
    (by decide) (by decide)
  rw [h]
  decide

/-- C10: key/value lines before the first URL line mutate the initial pending
record and are carried into the first emitted record; when the first URL line
arrives with the url field still the sentinel, no flush occurs. -/
theorem claim_C10 (catSo : Char → Bool) (lit : List Char → Except Unit PyVal) :
    (runRecords catSo lit ["title: T0".data, "https://a".data]).map
      (fun r => (getField r "url", getField r "title"))
      = [("https://a".data, "T0".data)] ∧
    (∀ (recs : List PinRecord) (cur : PinRecord) (raw : List Char),
      startsWithUrl (pyStrip raw) = true → pyStrip raw ≠ [] →
      getField cur "url" = "NA".data →
      processLine catSo lit (recs, cur) raw
        = (recs, setField cur "url"
            (sanitize_value catSo (some (pyStrip raw))))) := by
  constructor
  · have hA : sanitize_value catSo (some "https://a".data) = "https://a".data := by
      rw [sanitize_value_congr catSo _ (by decide)]; decide
    have hT0 : sanitize_value catSo (some "T0".data) = "T0".data := by
      rw [sanitize_value_congr catSo _ (by decide)]; decide
    have e1 : processLine catSo lit ([], initRecord) "title: T0".data
        = ([], setField initRecord "title"
            (sanitize_value catSo (some "T0".data))) := rfl
    simp only [runRecords, List.foldl_cons, List.foldl_nil]
    rw [e1, hT0]
    have e2 : processLine catSo lit
        ([], setField initRecord "title" "T0".data) "https://a".data
        = ([], setField (setField initRecord "title" "T0".data) "url"
            (sanitize_value catSo (some "https://a".data))) := rfl
    rw [e2, hA]
    decide
  · intro recs cur raw hurl hne hna
    have hq : urlQualifies cur = false := by
      simp [urlQualifies, hna]
    simp only [processLine]
    rw [if_neg hne, if_pos hurl]
    simp only [hq, Bool.false_eq_true, if_false]

/-- Witness for C10: the first URL line does not flush the sentinel-url
pending record. -/
theorem claim_C10_witness :
    processLine catFalse litFailAll ([], initRecord) "https://a".data
      = ([], setField initRecord "url" "https://a".data) := by
  have h := (claim_C10 catFalse litFailAll).2 [] initRecord "https://a".data
    (by decide) (by decide) (by decide)
  rw [h]
  decide

theorem setField_keys (r : PinRecord) (k : String) (v : List Char) :
    (setField r k v).map Prod.fst = r.map Prod.fst := by
  unfold setField
  rw [List.map_map]
  apply List.map_congr_left
  intro p _
  by_cases hp : p.1 = k
  · simp [Function.comp, hp]
  · simp [Function.comp, hp]

theorem initRecord_keys : initRecord.map Prod.fst = CSV_FIELDS := by
  unfold initRecord
  rw [List.map_map,
    show (Prod.fst ∘ fun f : String => (f, "NA".data)) = id from rfl,
    List.map_id]

theorem processLine_keys (catSo : Char → Bool)
    (lit : List Char → Except Unit PyVal)
    (st : List PinRecord × PinRecord) (raw : List Char)
    (h1 : ∀ r ∈ st.1, r.map Prod.fst = CSV_FIELDS)
    (h2 : st.2.map Prod.fst = CSV_FIELDS) :
    (∀ r ∈ (processLine catSo lit st raw).1, r.map Prod.fst = CSV_FIELDS) ∧
    (processLine catSo lit st raw).2.map Prod.fst = CSV_FIELDS := by
  simp only [processLine]
  split
  · exact ⟨h1, h2⟩
  split
  · split
    · refine ⟨?_, by rw [setField_keys]; exact initRecord_keys⟩
      intro r hr
      rcases List.mem_append.mp hr with h | h
      · exact h1 r h
      · rw [List.mem_singleton.mp h]; exact h2
    · exact ⟨h1, by rw [setField_keys]; exact h2⟩
  split
  · split
    · exact ⟨h1, h2⟩
    · split
      · exact ⟨h1, by rw [setField_keys]; exact h2⟩
      · split
        · exact ⟨h1, by rw [setField_keys]; exact h2⟩
        · exact ⟨h1, by rw [setField_keys]; exact h2⟩
  · exact ⟨h1, h2⟩

theorem foldl_keys (catSo : Char → Bool) (lit : List Char → Except Unit PyVal) :
    ∀ (lines : List (List Char)) (st : List PinRecord × PinRecord),
      (∀ r ∈ st.1, r.map Prod.fst = CSV_FIELDS) →
      st.2.map Prod.fst = CSV_FIELDS →
      (∀ r ∈ (lines.foldl (processLine catSo lit) st).1,
        r.map Prod.fst = CSV_FIELDS) ∧
      (lines.foldl (processLine catSo lit) st).2.map Prod.fst = CSV_FIELDS := by
  intro lines
  induction lines with
  | nil => intro st h1 h2; exact ⟨h1, h2⟩
  | cons l ls ih =>
    intro st h1 h2
    have hstep := processLine_keys catSo lit st l h1 h2
    exact ih _ hstep.1 hstep.2

/-- C8: every emitted record carries exactly the schema's field keys, in
schema order; the initial record maps every field to the sentinel `"NA"`; and
the emitted rows list the cells in the schema-declared column order. -/
theorem claim_C8 (catSo : Char → Bool) (lit : List Char → Except Unit PyVal)
    (lines : List (List Char)) :
    (∀ r ∈ runRecords catSo lit lines, r.map Prod.fst = CSV_FIELDS) ∧
    (∀ f : String, getField initRecord f = "NA".data) ∧
    (∀ recs : List PinRecord, emitRows catSo recs
        = recs.map (fun r => CSV_FIELDS.map (fun f => safeCell catSo (getField r f)))) := by
  refine ⟨?_, ?_, fun recs => rfl⟩
  · have hfold := foldl_keys catSo lit lines ([], initRecord)
      (by intro r hr; simp at hr) initRecord_keys
    intro r hr
    unfold runRecords at hr
    by_cases hq : urlQualifies
        ((lines.foldl (processLine catSo lit) ([], initRecord)).2) = true
    · rw [if_pos hq] at hr
      rcases List.mem_append.mp hr with h | h
      · exact hfold.1 r h
      · rw [List.mem_singleton.mp h]; exact hfold.2
    · rw [if_neg hq] at hr
      exact hfold.1 r hr
  · intro f
    unfold getField
    cases hf : initRecord.find? (fun p => p.1 = f) with
    | none => rfl
    | some p =>
      have hmem := List.mem_of_find?_eq_some hf
      rcases List.mem_map.mp hmem with ⟨f', _, he⟩
      rw [← he]

/-- Witness for C8: the single-line run emits one record whose key list is
exactly the schema order. -/
theorem claim_C8_witness :
    (setField initRecord "url" "https://a".data ∈
      runRecords catFalse litFailAll ["https://a".data]) ∧
    (setField initRecord "url" "https://a".data).map Prod.fst = CSV_FIELDS := by
  have hmem : setField initRecord "url" "https://a".data ∈
      runRecords catFalse litFailAll ["https://a".data] := by decide
  exact ⟨hmem, (claim_C8 catFalse litFailAll ["https://a".data]).1 _ hmem⟩
